import Mathlib

set_option maxRecDepth 100000

/-!
Shallow embedding of the deduplication and catch-up logic of the
unoffical-bluesky-bot repository (src/index.js, src/unnamed/part_000,
src/unnamed/part_001 and the timestamp-based variant embedded in
src/README.md), together with theorems settling the frozen claims.

Modelling conventions:
- Feed entries are records of optional fields, matching rss-parser items
  whose fields may be absent; JavaScript string truthiness (undefined and
  the empty string are falsy) is modelled by the truthy predicate.
- Timestamps are Nat milliseconds (the value of new Date(x).getTime()).
  An entry whose isoDate is absent gives a NaN sort key in JavaScript and
  makes the comparator inconsistent (implementation-defined order), so
  order-sensitive theorems carry the hypothesis that every entry has a
  timestamp, as the feed data model requires.
- Array.prototype.sort with a numeric comparator is a stable sort
  (ES2019); it is modelled by insertion sort with a non-strict comparison
  on the same key, which is stable and produces the same result.
-/

namespace BlueskyBot

/-- A raw RSS feed entry as produced by rss-parser: every field may be
absent. contentSnippet is the short summary field. -/
structure Entry where
  title : Option String
  link : Option String
  isoDate : Option Nat
  contentSnippet : Option String
deriving DecidableEq, Repr

/-- JavaScript truthiness of an optional string: undefined and the empty
string are falsy. -/
def truthy : Option String → Bool
  | none => false
  | some s => s ≠ ""

/-- String.prototype.includes: pat occurs as a contiguous substring of s. -/
def strIncludes (s pat : String) : Bool :=
  (List.range (s.data.length + 1)).any (fun i => pat.data.isPrefixOf (s.data.drop i))

/-- item.link at places where the source has already established it is a
truthy string. -/
def linkOf (e : Entry) : String := e.link.getD ""

/-- new Date(item.isoDate).getTime(), in milliseconds. -/
def dateKey (e : Entry) : Nat := e.isoDate.getD 0

/-- Sort relation of the comparator (a, b) => new Date(a.isoDate) - new
Date(b.isoDate): a sorts no later than b when its date key is no larger. -/
def dateLE (a b : Entry) : Prop := dateKey a ≤ dateKey b

instance : DecidableRel dateLE := fun _ _ => Nat.decLe _ _

instance : IsTotal Entry dateLE := ⟨fun a b => Nat.le_total (dateKey a) (dateKey b)⟩

instance : IsTrans Entry dateLE := ⟨fun _ _ _ h h2 => Nat.le_trans h h2⟩

/-- Sort relation of the descending comparator (a, b) => new
Date(b.isoDate) - new Date(a.isoDate). -/
def dateGE (a b : Entry) : Prop := dateKey b ≤ dateKey a

instance : DecidableRel dateGE := fun _ _ => Nat.decLe _ _

instance : IsTotal Entry dateGE := ⟨fun a b => Nat.le_total (dateKey b) (dateKey a)⟩

instance : IsTrans Entry dateGE := ⟨fun _ _ _ h h2 => Nat.le_trans h2 h⟩

/-- The persisted state.json record: possibly missing, unparseable, or a
JSON object whose history, last_link and last_time fields may each be
absent. -/
inductive RawState where
  | absent
  | corrupt
  | record (history : Option (List String)) (lastLink : Option String) (lastTime : Option Nat)
deriving DecidableEq, Repr

/-! ## src/index.js: the history-set engine -/

/-- State loading of src/index.js: an array-valued history field is taken
as is; otherwise a truthy last_link migrates to a singleton list;
missing or corrupt state yields the empty history. -/
def loadHistory : RawState → List String
  | .record (some h) _ _ => h
  | .record none (some l) _ => if l ≠ "" then [l] else []
  | _ => []

/-- The eligibility filter of src/index.js: item.link and item.title must
be truthy and the title must not contain the marketing denylist string.
The timestamp field is not inspected. -/
def validItem (e : Entry) : Bool :=
  truthy e.link && truthy e.title && !(strIncludes (e.title.getD "") "Abone olmak için")

/-- allValidItems of src/index.js. -/
def allValidItems (feed : List Entry) : List Entry := feed.filter validItem

/-- newItems before the first-run cap: valid entries whose link is not in
the posted history. -/
def candidateItems (feed : List Entry) (hist : List String) : List Entry :=
  (allValidItems feed).filter (fun e => !(hist.contains (linkOf e)))

/-- Condition of the first-run safety cap of src/index.js: empty history
and more than 5 candidates. -/
def firstRunCapTriggers (feed : List Entry) (hist : List String) : Bool :=
  decide (hist.length = 0) && decide (5 < (candidateItems feed hist).length)

/-- The in-memory history after the first-run cap: when the cap triggers,
every candidate link is seeded into the history. -/
def histAfterCap (feed : List Entry) (hist : List String) : List String :=
  if firstRunCapTriggers feed hist then (candidateItems feed hist).map linkOf else hist

/-- The unsorted selection after the first-run cap: when the cap triggers
only the first candidate (feed order) is kept. -/
def itemsAfterCap (feed : List Entry) (hist : List String) : List Entry :=
  if firstRunCapTriggers feed hist then (candidateItems feed hist).take 1
  else candidateItems feed hist

/-- The publish plan of src/index.js: the post-cap selection sorted
ascending by date (newItems.sort((a, b) => new Date(a.isoDate) - new
Date(b.isoDate))). -/
def planOf (feed : List Entry) (hist : List String) : List Entry :=
  List.insertionSort dateLE (itemsAfterCap feed hist)

/-- One successful publish acting on the history: push the link, then if
the length exceeds 100 keep only the last 100 (slice(-100)). -/
def capPush (h : List String) (l : String) : List String :=
  if (h ++ [l]).length > 100 then (h ++ [l]).drop ((h ++ [l]).length - 100) else h ++ [l]

/-- The history evolution over a sequence of successfully published
links. -/
def histFold (h : List String) (ls : List String) : List String :=
  ls.foldl capPush h

/-- The post loop of src/index.js over a plan, with an oracle ok giving
the outcome of each publish call: a success pushes the link into the
history, a failure leaves it unchanged and moves on. -/
def loopHist (ok : Entry → Bool) (p : List Entry) (h : List String) : List String :=
  p.foldl (fun acc e => if ok e then capPush acc (linkOf e) else acc) h

/-- The in-memory history at the end of a run in which every publish
succeeds. -/
def runOnce (feed : List Entry) (hist : List String) : List String :=
  loopHist (fun _ => true) (planOf feed hist) (histAfterCap feed hist)

/-- The logical content of the state file at the end of a run: the file
is rewritten after each success, so it holds the history as of the last
success, and keeps its prior content when no publish succeeds. -/
def finalRecorded (ok : Entry → Bool) (feed : List Entry) (hist : List String) : List String :=
  if (planOf feed hist).any ok then loopHist ok (planOf feed hist) (histAfterCap feed hist)
  else hist

/-- JavaScript s.substring(0, n): the first n code units of s. -/
def jsSubstring (s : String) (n : Nat) : String := ⟨s.data.take n⟩

/-- The description field built by postToBluesky in src/index.js:
item.contentSnippet ? item.contentSnippet.substring(0, 250) + "..." :
"". -/
def descOf (e : Entry) : String :=
  if truthy e.contentSnippet then jsSubstring (e.contentSnippet.getD "") 250 ++ "..." else ""

/-! ## src/unnamed/part_000 and part_001: the single-link engine -/

/-- The catch-up selection of src/unnamed/part_000 (identical in
part_001): locate the stored last link in the raw feed; absent link with
empty state posts the newest entry, absent link with non-empty state
posts the first 3 entries, index 0 posts nothing, and index i posts the
first i entries; the selection is then reversed to oldest-first. -/
def reconcileSingle (feed : List Entry) (lastPostedLink : String) : List Entry :=
  (match feed.findIdx? (fun (e : Entry) => e.link == some lastPostedLink) with
    | none => if lastPostedLink = "" then feed.take 1 else feed.take 3
    | some 0 => []
    | some (i + 1) => feed.take (i + 1)).reverse

/-! ## The timestamp engine embedded in src/README.md -/

/-- The eligibility filter of the timestamp variant: title, link and
isoDate must all be truthy, and the title must not contain its (mojibake)
denylist string. -/
def validItemTS (e : Entry) : Bool :=
  truthy e.title && truthy e.link && e.isoDate.isSome &&
    !(strIncludes (e.title.getD "") "Abone olmak iÃ§in")

/-- allItems of the timestamp variant: the filtered feed sorted newest
first. -/
def allItemsTS (feed : List Entry) : List Entry :=
  List.insertionSort dateGE (feed.filter validItemTS)

/-- State loading of the timestamp variant: a truthy last_time is the
high-water time; otherwise a truthy last_link is looked up in the sorted
valid items and its date used when found; in every other case the time is
0, the value that selects the first-run path. A stored time of 0
(epoch) is treated as falsy, matching an empty timestamp string. -/
def loadTimeTS (raw : RawState) (allItems : List Entry) : Nat :=
  match raw with
  | .record _ llink ltime =>
    if ltime.getD 0 ≠ 0 then ltime.getD 0
    else
      match llink with
      | some l =>
        if l ≠ "" then
          match allItems.find? (fun e => e.link == some l) with
          | some e => dateKey e
          | none => 0
        else 0
      | none => 0
  | _ => 0

/-- Item selection of the timestamp variant: time 0 is the first-run path
posting the single newest item; otherwise all items strictly newer than
the high-water time, sorted oldest first. -/
def selectTS (allItems : List Entry) (lastTime : Nat) : List Entry :=
  if lastTime = 0 then List.insertionSort dateLE (allItems.take 1)
  else List.insertionSort dateLE (allItems.filter (fun e => lastTime < dateKey e))

/-- The canonical in-memory dedupe state of the specification: a set of
published links plus an optional high-water timestamp. -/
structure CanonState where
  publishedSet : List String
  highWaterTime : Option Nat
deriving DecidableEq, Repr

/-- The canonical state actually carried by the timestamp variant: it
keeps no link set at all, and time 0 is indistinguishable from the empty
first-run state. -/
def canonOfTS (t : Nat) : CanonState :=
  ⟨[], if t = 0 then none else some t⟩

/-- Modelled from the spec: the normalization rule claimed for a legacy
single-link record with no timestamp (spec 4.1 and claim C8) - resolve
the timestamp by locating the link in the current snapshot; if found,
promote to high-water mode; if not found, fall back to set-membership
mode with the singleton set of that link. -/
def normalizeLegacySpec (l : String) (allItems : List Entry) : CanonState :=
  match allItems.find? (fun e => e.link == some l) with
  | some e => ⟨[l], some (dateKey e)⟩
  | none => ⟨[l], none⟩

/-! ## Concrete inputs used by counterexamples and witnesses -/

/-- A well-formed feed entry with link li and timestamp i + 1. -/
def mkEnt (i : Nat) : Entry := ⟨some "t", some ("l" ++ toString i), some (i + 1), none⟩

/-- 8 eligible entries, newest last; none has link x. -/
def feedC1 : List Entry := (List.range 8).map mkEnt

/-- A 3-entry feed for the single-link variant witness. -/
def feedW1 : List Entry := [mkEnt 0, mkEnt 1, mkEnt 2]

/-- 101 eligible entries in oldest-first order. -/
def feedC2 : List Entry := (List.range 101).map mkEnt

/-- 7 eligible entries in newest-first order. -/
def feedW2 : List Entry := [mkEnt 6, mkEnt 5, mkEnt 4, mkEnt 3, mkEnt 2, mkEnt 1, mkEnt 0]

/-- A prior history already holding 100 links h0 .. h99. -/
def hist100 : List String := (List.range 100).map (fun i => "h" ++ toString i)

/-- A feed still containing the entry with the oldest tracked link h0,
plus one new entry. -/
def feedC3 : List Entry :=
  [⟨some "t", some "h0", some 1, none⟩, ⟨some "t", some "n", some 2, none⟩]

/-- A 2-entry feed for the idempotence witness. -/
def feedW3 : List Entry := [mkEnt 0, mkEnt 1]

/-- A 3-entry feed given out of chronological order. -/
def feedW4 : List Entry := [mkEnt 4, mkEnt 0, mkEnt 2]

/-- 101 links to publish in history-set mode. -/
def lsW5 : List String := (List.range 101).map (fun i => "p" ++ toString i)

/-- 102 eligible entries, more than the history cap can hold. -/
def feedC6 : List Entry := (List.range 102).map mkEnt

/-- Publish outcome oracle under which only the entry with link l1
fails. -/
def okC6 (e : Entry) : Bool := !(e.link == some "l1")

/-- A 3-entry feed for the partial-failure witness. -/
def feedW6 : List Entry := [mkEnt 0, mkEnt 1, mkEnt 2]

/-- Publish outcome oracle failing exactly the entry with link l1. -/
def okW6 (e : Entry) : Bool := !(e.link == some "l1")

/-- A 2-entry feed not containing the legacy link L. -/
def feedC8 : List Entry :=
  [⟨some "t", some "a", some 2, none⟩, ⟨some "t", some "b", some 1, none⟩]

/-- A 1-entry feed containing the legacy link k. -/
def feedW8 : List Entry := [⟨some "t", some "k", some 3, none⟩]

/-- Exactly 100 eligible entries on a first run. -/
def feedC9 : List Entry := (List.range 100).map mkEnt

/-- 7 eligible entries on a first run. -/
def feedW9 : List Entry := (List.range 7).map mkEnt

/-! ## Helper lemmas -/

lemma contains_iff_mem (l : List String) (x : String) : l.contains x = true ↔ x ∈ l :=
  List.elem_iff

lemma truthy_iff (o : Option String) : truthy o = true ↔ ∃ s, o = some s ∧ s ≠ "" := by
  cases o <;> simp [truthy]

lemma capPush_of_le {h : List String} {l : String} (hle : h.length + 1 ≤ 100) :
    capPush h l = h ++ [l] := by
  have hc : ¬ ((h ++ [l]).length > 100) := by
    simp only [List.length_append, List.length_singleton]
    omega
  simp only [capPush, if_neg hc]

lemma capPush_of_gt {h : List String} {l : String} (hgt : 100 < h.length + 1) :
    capPush h l = (h ++ [l]).drop (h.length + 1 - 100) := by
  have hc : (h ++ [l]).length > 100 := by
    simp only [List.length_append, List.length_singleton]
    omega
  unfold capPush
  rw [if_pos hc]
  simp only [List.length_append, List.length_singleton]

lemma capPush_suffix (h : List String) (l : String) : capPush h l <:+ h ++ [l] := by
  unfold capPush
  split
  · exact List.drop_suffix _ _
  · exact List.suffix_refl _

lemma length_capPush (h : List String) (l : String) :
    (capPush h l).length = min (h.length + 1) 100 := by
  rcases Nat.le_total (h.length + 1) 100 with hc | hc
  · rw [capPush_of_le hc, Nat.min_eq_left hc]
    simp
  · rcases Nat.eq_or_lt_of_le hc with hc2 | hc2
    · rw [← hc2, capPush_of_le (le_of_eq hc2.symm), Nat.min_self]
      simp [hc2]
    · rw [capPush_of_gt hc2, Nat.min_eq_right (le_of_lt hc2)]
      simp only [List.length_drop, List.length_append, List.length_singleton]
      omega

lemma histFold_cons (h : List String) (a : String) (ls : List String) :
    histFold h (a :: ls) = histFold (capPush h a) ls := rfl

lemma histFold_suffix (h : List String) (ls : List String) : histFold h ls <:+ h ++ ls := by
  induction ls generalizing h with
  | nil =>
    rw [List.append_nil]
    exact List.suffix_refl h
  | cons a ls ih =>
    rw [histFold_cons]
    refine (ih (capPush h a)).trans ?_
    obtain ⟨u, hu⟩ := capPush_suffix h a
    refine ⟨u, ?_⟩
    rw [← List.append_assoc, hu, List.append_assoc, List.singleton_append]

lemma length_histFold (h : List String) (ls : List String) (hh : h.length ≤ 100) :
    (histFold h ls).length = min (h.length + ls.length) 100 := by
  induction ls generalizing h with
  | nil =>
    simp only [histFold, List.foldl_nil, List.length_nil, Nat.add_zero]
    rw [Nat.min_eq_left hh]
  | cons a ls ih =>
    rw [histFold_cons, ih _ (by rw [length_capPush]; omega), length_capPush]
    simp only [List.length_cons]
    rcases Nat.le_total (h.length + 1) 100 with hc | hc
    · rw [Nat.min_eq_left hc]
      congr 1
      omega
    · rw [Nat.min_eq_right hc]
      have e1 : min (100 + ls.length) 100 = 100 := Nat.min_eq_right (by omega)
      have e2 : min (h.length + (ls.length + 1)) 100 = 100 := Nat.min_eq_right (by omega)
      rw [e1, e2]

lemma suffix_eq_drop {s t : List String} (hs : s <:+ t) :
    s = t.drop (t.length - s.length) := by
  obtain ⟨u, rfl⟩ := hs
  have hlen : (u ++ s).length - s.length = u.length := by
    simp only [List.length_append]
    omega
  rw [hlen, List.drop_left]

lemma histFold_eq_drop (h : List String) (ls : List String) (hh : h.length ≤ 100) :
    histFold h ls =
      (h ++ ls).drop (h.length + ls.length - min (h.length + ls.length) 100) := by
  have hs := suffix_eq_drop (histFold_suffix h ls)
  rw [length_histFold h ls hh] at hs
  rw [hs]
  congr 1
  simp only [List.length_append]

lemma histFold_of_no_evict (h : List String) (ls : List String)
    (hle : h.length + ls.length ≤ 100) : histFold h ls = h ++ ls := by
  rw [histFold_eq_drop h ls (by omega), Nat.min_eq_left hle]
  simp

lemma mem_histFold_of_mem {x : String} (h : List String) (ls : List String)
    (hh : h.length ≤ 100) (hls : ls.length ≤ 100) (hx : x ∈ ls) :
    x ∈ histFold h ls := by
  rw [histFold_eq_drop h ls hh]
  rcases Nat.le_total (h.length + ls.length) 100 with hc | hc
  · rw [Nat.min_eq_left hc]
    simp only [Nat.sub_self, List.drop_zero]
    exact List.mem_append_right _ hx
  · rw [Nat.min_eq_right hc, List.drop_append_of_le_length (by omega)]
    exact List.mem_append_right _ hx

lemma not_mem_histFold {x : String} (h : List String) (ls : List String)
    (hxh : x ∉ h) (hxl : x ∉ ls) : x ∉ histFold h ls := by
  induction ls generalizing h with
  | nil => simpa [histFold] using hxh
  | cons a ls ih =>
    rw [histFold_cons]
    have hxa : x ≠ a := fun hx => hxl (hx ▸ List.mem_cons_self a ls)
    refine ih _ (fun hm => ?_) (fun hm => hxl (List.mem_cons_of_mem a hm))
    rcases List.mem_append.mp ((capPush_suffix h a).subset hm) with hm2 | hm2
    · exact hxh hm2
    · exact hxa (List.mem_singleton.mp hm2)

lemma loopHist_eq_histFold (ok : Entry → Bool) (p : List Entry) (h : List String) :
    loopHist ok p h = histFold h ((p.filter ok).map linkOf) := by
  induction p generalizing h with
  | nil => rfl
  | cons a p ih =>
    by_cases hok : ok a
    · have h1 : loopHist ok (a :: p) h = loopHist ok p (capPush h (linkOf a)) := by
        simp [loopHist, hok]
      rw [h1, ih, List.filter_cons_of_pos hok, List.map_cons, histFold_cons]
    · have h1 : loopHist ok (a :: p) h = loopHist ok p h := by
        simp [loopHist, hok]
      rw [h1, ih, List.filter_cons_of_neg (by simpa using hok)]

lemma candidateItems_nil (feed : List Entry) :
    candidateItems feed [] = allValidItems feed := by
  unfold candidateItems
  have : ∀ e ∈ allValidItems feed, (!(List.contains [] (linkOf e))) = true := by
    intro e _
    rfl
  induction allValidItems feed with
  | nil => rfl
  | cons a l ih => simp [List.filter_cons, ih]

lemma capTriggers_iff (feed : List Entry) (hist : List String) :
    firstRunCapTriggers feed hist = true ↔
      hist = [] ∧ 5 < (candidateItems feed hist).length := by
  unfold firstRunCapTriggers
  simp [List.length_eq_zero]

lemma mem_plan_iff (feed : List Entry) (hist : List String) (e : Entry) :
    e ∈ planOf feed hist ↔ e ∈ itemsAfterCap feed hist := by
  unfold planOf
  exact (List.perm_insertionSort dateLE _).mem_iff

lemma length_plan (feed : List Entry) (hist : List String) :
    (planOf feed hist).length = (itemsAfterCap feed hist).length := by
  unfold planOf
  exact (List.perm_insertionSort dateLE _).length_eq

lemma length_jsSubstring (s : String) (n : Nat) :
    (jsSubstring s n).length = min n s.length := by
  show (s.data.take n).length = min n s.data.length
  exact List.length_take n s.data

lemma firstRun_cap_structure (feed : List Entry)
    (hgt : 5 < (candidateItems feed []).length) :
    ∃ m rest, candidateItems feed [] = m :: rest ∧
      planOf feed [] = [m] ∧
      histAfterCap feed [] = (m :: rest).map linkOf ∧
      runOnce feed [] = capPush ((m :: rest).map linkOf) (linkOf m) := by
  obtain ⟨m, rest, hmr⟩ : ∃ m rest, candidateItems feed [] = m :: rest := by
    cases hc : candidateItems feed [] with
    | nil => rw [hc] at hgt; simp at hgt
    | cons a l => exact ⟨a, l, rfl⟩
  have hcap : firstRunCapTriggers feed [] = true :=
    (capTriggers_iff feed []).mpr ⟨rfl, hgt⟩
  have hplan : planOf feed [] = [m] := by
    unfold planOf itemsAfterCap
    rw [if_pos hcap, hmr]
    rfl
  have hseed : histAfterCap feed [] = (m :: rest).map linkOf := by
    unfold histAfterCap
    rw [if_pos hcap, hmr]
  have hrun : runOnce feed [] = capPush ((m :: rest).map linkOf) (linkOf m) := by
    unfold runOnce
    rw [hplan, hseed]
    rfl
  exact ⟨m, rest, hmr, hplan, hseed, hrun⟩

/-! ## Claim theorems -/

/-- C1, counterexample: in the history-set engine of src/index.js, a
non-empty prior state whose only tracked link x is absent from an
8-entry eligible snapshot yields a publish plan of all 8 candidates, not
the 3 most recent required by the claim: there is no stale-state cap. -/
theorem c1_counterexample :
    ("x" ∉ feedC1.map linkOf) ∧ (["x"] : List String) ≠ [] ∧
    (candidateItems feedC1 ["x"]).length = 8 ∧
    (planOf feedC1 ["x"]).length = 8 ∧ (planOf feedC1 ["x"]).length ≠ 3 := by
  decide

/-- C1, amended: the 3-most-recent stale-state cap exists only in the
single-link engine variants (src/unnamed/part_000 and part_001): when the
stored last link is non-empty and occurs nowhere in the feed snapshot,
the selection is exactly the first 3 feed entries (the 3 most recent
under the newest-first feed order those variants assume), reversed to
oldest-first, hence of length exactly 3. The history-set engine of
src/index.js applies no such cap and publishes the full candidate
backlog. -/
theorem c1_amended (feed : List Entry) (last : String) (hne : last ≠ "")
    (habsent : ∀ e ∈ feed, ¬ e.link = some last) (hlen : 3 ≤ feed.length) :
    reconcileSingle feed last = (feed.take 3).reverse ∧
    (reconcileSingle feed last).length = 3 := by
  have hidx : feed.findIdx? (fun e => e.link == some last) = none := by
    rw [List.findIdx?_eq_none_iff]
    intro x hx
    simpa using habsent x hx
  have hsel : reconcileSingle feed last = (feed.take 3).reverse := by
    unfold reconcileSingle
    rw [hidx]
    simp [hne]
  refine ⟨hsel, ?_⟩
  rw [hsel, List.length_reverse, List.length_take]
  exact Nat.min_eq_left hlen

/-- C1, witness for the amended theorem at a concrete 3-entry feed. -/
theorem c1_witness :
    (("z" : String) ≠ "") ∧ reconcileSingle feedW1 "z" = (feedW1.take 3).reverse ∧
    (reconcileSingle feedW1 "z").length = 3 :=
  ⟨by decide, (c1_amended feedW1 "z" (by decide) (by decide) (by decide)).1,
    (c1_amended feedW1 "z" (by decide) (by decide) (by decide)).2⟩

/-- C7, counterexample: the filter of src/index.js does not discard an
entry that is missing its timestamp - an entry with a title and a link
but no isoDate passes validItem and reaches the eligible set, contrary
to the claim that entries missing a timestamp are discarded. -/
theorem c7_counterexample :
    (⟨some "t", some "l", none, none⟩ : Entry).isoDate = none ∧
    validItem ⟨some "t", some "l", none, none⟩ = true ∧
    (⟨some "t", some "l", none, none⟩ : Entry) ∈
      allValidItems [⟨some "t", some "l", none, none⟩] := by
  decide

/-- C7, amended: the eligibility filter of src/index.js keeps exactly the
entries with a present non-empty link, a present non-empty title, and no
denylist substring in the title; the timestamp is not checked. Only
entries passing this filter can appear in the publish plan, so filtering
does happen before dedupe and the caps. -/
theorem c7_eligibility (feed : List Entry) (hist : List String) (e : Entry) :
    (e ∈ allValidItems feed ↔
      e ∈ feed ∧ (∃ s, e.link = some s ∧ s ≠ "") ∧ (∃ s, e.title = some s ∧ s ≠ "") ∧
        strIncludes (e.title.getD "") "Abone olmak için" = false)
    ∧ (e ∈ planOf feed hist → e ∈ allValidItems feed) := by
  constructor
  · simp only [allValidItems, List.mem_filter, validItem, Bool.and_eq_true, truthy_iff,
      Bool.not_eq_true']
    tauto
  · intro hp
    rw [mem_plan_iff] at hp
    have hc : e ∈ candidateItems feed hist := by
      unfold itemsAfterCap at hp
      split at hp
      · exact List.take_subset 1 _ hp
      · exact hp
    unfold candidateItems at hc
    exact List.mem_of_mem_filter hc

/-- C7, witness for the amended theorem at a concrete entry. -/
theorem c7_witness : mkEnt 0 ∈ allValidItems [mkEnt 0] :=
  (c7_eligibility [mkEnt 0] [] (mkEnt 0)).1.mpr
    ⟨by decide, ⟨"l0", by decide, by decide⟩, ⟨"t", by decide, by decide⟩, by decide⟩

/-- C10, confirmed: for an entry with a non-empty summary the built
description is the first 250 code units of the summary followed by the
"..." marker (appended even when the summary already fits), so its
length is min 250 len + 3, at most 253; an entry with an absent or empty
summary gives the empty description. -/
theorem c10_description (e : Entry) :
    (∀ s : String, e.contentSnippet = some s → s ≠ "" →
      descOf e = jsSubstring s 250 ++ "..." ∧
      (descOf e).length = min 250 s.length + 3 ∧ (descOf e).length ≤ 253)
    ∧ ((e.contentSnippet = none ∨ e.contentSnippet = some "") → descOf e = "") := by
  constructor
  · intro s hs hne
    have ht : truthy e.contentSnippet = true := by
      rw [hs]
      simpa [truthy] using hne
    have hd : descOf e = jsSubstring s 250 ++ "..." := by
      unfold descOf
      rw [if_pos ht, hs]
      rfl
    have hmarker : ("..." : String).length = 3 := rfl
    refine ⟨hd, ?_, ?_⟩
    · rw [hd, String.length_append, length_jsSubstring, hmarker]
    · rw [hd, String.length_append, length_jsSubstring, hmarker]
      have : min 250 s.length ≤ 250 := Nat.min_le_left _ _
      omega
  · intro hc
    unfold descOf
    rcases hc with h | h <;> rw [h] <;> simp [truthy]

/-- C4, confirmed: the publish plan of src/index.js is sorted ascending
by timestamp whatever the snapshot order, and the post loop walks the
plan in order, so of two planned entries the one with the strictly
smaller timestamp is published strictly earlier. The hypothesis that
every entry carries a timestamp marks the domain on which the model is
faithful: a missing isoDate gives a NaN comparator value in JavaScript
and an implementation-defined sort order. -/
theorem c4_chronological (feed : List Entry) (hist : List String)
    (hdates : ∀ e ∈ feed, e.isoDate.isSome)
    (i j : Fin (planOf feed hist).length)
    (hlt : dateKey ((planOf feed hist).get i) < dateKey ((planOf feed hist).get j)) :
    (i : Nat) < (j : Nat) := by
  have hsorted : List.Sorted dateLE (planOf feed hist) :=
    List.sorted_insertionSort dateLE (itemsAfterCap feed hist)
  rcases lt_trichotomy (i : Nat) (j : Nat) with h | h | h
  · exact h
  · exfalso
    rw [Fin.ext h] at hlt
    exact lt_irrefl _ hlt
  · exfalso
    have hle : dateLE ((planOf feed hist).get j) ((planOf feed hist).get i) :=
      hsorted.rel_get_of_lt (show j < i from h)
    unfold dateLE at hle
    omega

/-- C4, witness at a concrete out-of-order 3-entry feed. -/
theorem c4_witness : (∀ e ∈ feedW4, e.isoDate.isSome) ∧ (0 : Nat) < 2 :=
  ⟨by decide,
    c4_chronological feedW4 [] (by decide) ⟨0, by decide⟩ ⟨2, by decide⟩ (by decide)⟩

/-- C5, confirmed: over any sequence of successful publishes in
history-set mode (starting from a well-formed history of at most 100
links), every intermediate persisted history has length at most 100, and
after more than 100 publishes the history is exactly the suffix of the
100 most recently published links in publication order: eviction always
removes the oldest entries first. -/
theorem c5_bounded_history (h0 ls : List String) (hh : h0.length ≤ 100)
    (hn : 100 < ls.length) :
    (∀ p, p <+: ls → (histFold h0 p).length ≤ 100) ∧
    histFold h0 ls = ls.drop (ls.length - 100) := by
  constructor
  · intro p _
    rw [length_histFold h0 p hh]
    exact Nat.min_le_right _ _
  · rw [histFold_eq_drop h0 ls hh, Nat.min_eq_right (by omega)]
    have h1 : h0.length + ls.length - 100 = h0.length + (ls.length - 100) := by omega
    rw [h1, List.drop_append]

/-- C5, witness: 101 publishes from an empty history keep exactly the
last 100 links. -/
theorem c5_witness :
    ([] : List String).length ≤ 100 ∧ 100 < lsW5.length ∧
    histFold [] lsW5 = lsW5.drop 1 := by
  refine ⟨by decide, by decide, ?_⟩
  have h := (c5_bounded_history [] lsW5 (by decide) (by decide)).2
  have he : lsW5.length - 100 = 1 := by decide
  rw [he] at h
  exact h

/-- C2, counterexample: on a first run over a 101-entry snapshot in
oldest-first order, the plan of src/index.js is the feed's first entry
(the oldest, not the most recent, because the engine never re-sorts
before picking newItems at index 0), and the eligible entry with link l1
is missing from the post-run history because the seeded 101 links plus
the published one overflow the 100 cap. -/
theorem c2_counterexample :
    (candidateItems feedC2 []).length = 101 ∧
    planOf feedC2 [] = [mkEnt 0] ∧
    (∃ e ∈ allValidItems feedC2, dateKey (mkEnt 0) < dateKey e) ∧
    validItem (mkEnt 1) = true ∧ mkEnt 1 ∈ feedC2 ∧
    linkOf (mkEnt 1) ∉ runOnce feedC2 [] := by
  decide

/-- C2, amended: on an empty prior state with more than 5 (and, so that
the 100-cap evicts nothing eligible, at most 100) candidates, when the
snapshot is ordered newest-first as the engine assumes, the plan is
exactly the single first candidate, which then has the maximal
timestamp among eligible entries, and after its successful publish the
run's history contains the link of every eligible entry. -/
theorem c2_amended (feed : List Entry)
    (hsorted : List.Sorted dateGE feed)
    (hgt : 5 < (candidateItems feed []).length)
    (hle : (candidateItems feed []).length ≤ 100) :
    ∃ m rest, candidateItems feed [] = m :: rest ∧
      planOf feed [] = [m] ∧
      (∀ e ∈ allValidItems feed, dateKey e ≤ dateKey m) ∧
      (∀ e ∈ allValidItems feed, linkOf e ∈ runOnce feed []) := by
  have hcv : candidateItems feed [] = allValidItems feed := candidateItems_nil feed
  obtain ⟨m, rest, hmr⟩ : ∃ m rest, candidateItems feed [] = m :: rest := by
    cases hc : candidateItems feed [] with
    | nil => rw [hc] at hgt; simp at hgt
    | cons a l => exact ⟨a, l, rfl⟩
  have hcap : firstRunCapTriggers feed [] = true :=
    (capTriggers_iff feed []).mpr ⟨rfl, hgt⟩
  have hitems : itemsAfterCap feed [] = [m] := by
    unfold itemsAfterCap
    rw [if_pos hcap, hmr]
    rfl
  have hplan : planOf feed [] = [m] := by
    unfold planOf
    rw [hitems]
    rfl
  have hsortedCand : List.Sorted dateGE (m :: rest) := by
    rw [← hmr, hcv]
    exact List.Pairwise.filter _ hsorted
  have hmax : ∀ e ∈ allValidItems feed, dateKey e ≤ dateKey m := by
    intro e he
    rw [← hcv, hmr] at he
    rcases List.mem_cons.mp he with rfl | hr
    · exact le_refl _
    · exact List.rel_of_sorted_cons hsortedCand e hr
  have hseed : histAfterCap feed [] = (candidateItems feed []).map linkOf := by
    unfold histAfterCap
    rw [if_pos hcap]
  have hrun : runOnce feed [] = capPush ((m :: rest).map linkOf) (linkOf m) := by
    unfold runOnce
    rw [hplan, hseed, hmr]
    rfl
  have hrestlen : rest.length + 1 ≤ 100 := by
    rw [hmr] at hle
    simpa using hle
  have hmem : ∀ e ∈ allValidItems feed, linkOf e ∈ runOnce feed [] := by
    intro e he
    have he2 : e ∈ m :: rest := by
      rw [← hmr, hcv]
      exact he
    rw [hrun]
    by_cases hc : rest.length + 2 ≤ 100
    · rw [capPush_of_le (by simp; omega)]
      exact List.mem_append_left _ (List.mem_map_of_mem _ he2)
    · rw [capPush_of_gt (by simp; omega)]
      have hd : ((m :: rest).map linkOf).length + 1 - 100 = 1 := by
        simp
        omega
      rw [hd, List.map_cons, List.cons_append, List.drop_succ_cons, List.drop_zero]
      rcases List.mem_cons.mp he2 with rfl | hr
      · exact List.mem_append_right _ (List.mem_singleton.mpr rfl)
      · exact List.mem_append_left _ (List.mem_map_of_mem _ hr)
  exact ⟨m, rest, hmr, hplan, hmax, hmem⟩

/-- C2, witness at a concrete newest-first 7-entry feed. -/
theorem c2_witness :
    List.Sorted dateGE feedW2 ∧
    (∃ m rest, candidateItems feedW2 [] = m :: rest ∧
      planOf feedW2 [] = [m] ∧
      (∀ e ∈ allValidItems feedW2, dateKey e ≤ dateKey m) ∧
      (∀ e ∈ allValidItems feedW2, linkOf e ∈ runOnce feedW2 [])) :=
  ⟨by decide, c2_amended feedW2 (by decide) (by decide) (by decide)⟩

/-- C3, counterexample: with a prior history already holding 100 links
and a feed still containing the entry with the oldest tracked link h0
plus one new entry, the first run publishes the new entry, the 100-cap
evicts h0 from the history, and a second run over the unchanged feed
selects the h0 entry again: the second plan is not empty. -/
theorem c3_counterexample :
    planOf feedC3 hist100 = [⟨some "t", some "n", some 2, none⟩] ∧
    planOf feedC3 (runOnce feedC3 hist100) = [⟨some "t", some "h0", some 1, none⟩] ∧
    planOf feedC3 (runOnce feedC3 hist100) ≠ [] := by
  decide

/-- C3, amended: reconciliation is idempotent provided the first run's
history stays within the 100-link cap (pre-loop history plus plan length
at most 100), so that no link still present in the feed is evicted:
running reconciliation again on the unchanged feed with the state
produced by a fully successful first run yields the empty plan, and so
no entry is selected twice. -/
theorem c3_idempotent (feed : List Entry) (hist : List String)
    (hcap : (histAfterCap feed hist).length + (planOf feed hist).length ≤ 100) :
    planOf feed (runOnce feed hist) = [] := by
  have hrun : runOnce feed hist =
      histAfterCap feed hist ++ (planOf feed hist).map linkOf := by
    unfold runOnce
    rw [loopHist_eq_histFold, List.filter_true]
    exact histFold_of_no_evict _ _ (by rw [List.length_map]; omega)
  have hvalid : ∀ e ∈ allValidItems feed, linkOf e ∈ runOnce feed hist := by
    intro e he
    rw [hrun]
    by_cases hin : hist.contains (linkOf e) = true
    · have hne : ¬ hist = [] := by
        intro h
        rw [h] at hin
        have := (contains_iff_mem [] _).mp hin
        simp at this
      have hcapf : ¬ firstRunCapTriggers feed hist = true := by
        rw [capTriggers_iff]
        tauto
      have hh : histAfterCap feed hist = hist := by
        unfold histAfterCap
        rw [if_neg hcapf]
      rw [hh]
      exact List.mem_append_left _ ((contains_iff_mem hist _).mp hin)
    · have hec : e ∈ candidateItems feed hist := by
        unfold candidateItems
        rw [List.mem_filter]
        exact ⟨he, by simpa using hin⟩
      by_cases hcapb : firstRunCapTriggers feed hist = true
      · have hh : histAfterCap feed hist = (candidateItems feed hist).map linkOf := by
          unfold histAfterCap
          rw [if_pos hcapb]
        rw [hh]
        exact List.mem_append_left _ (List.mem_map_of_mem _ hec)
      · have hep : e ∈ planOf feed hist := by
          rw [mem_plan_iff]
          unfold itemsAfterCap
          rw [if_neg hcapb]
          exact hec
        exact List.mem_append_right _ (List.mem_map_of_mem _ hep)
  have hnew : candidateItems feed (runOnce feed hist) = [] := by
    unfold candidateItems
    rw [List.filter_eq_nil_iff]
    intro e he
    have hc := (contains_iff_mem _ _).mpr (hvalid e he)
    simp [hc]
    exact hvalid e he
  have hitems : itemsAfterCap feed (runOnce feed hist) = [] := by
    unfold itemsAfterCap
    rw [hnew]
    split <;> rfl
  unfold planOf
  rw [hitems]
  rfl

/-- C3, witness at a concrete 2-entry feed with a small history. -/
theorem c3_witness :
    (histAfterCap feedW3 ["q"]).length + (planOf feedW3 ["q"]).length ≤ 100 ∧
    planOf feedW3 (runOnce feedW3 ["q"]) = [] :=
  ⟨by decide, c3_idempotent feedW3 ["q"] (by decide)⟩

/-- C6, counterexample: on a 102-entry plan where exactly the entry with
link l1 fails, 101 entries succeed and the 100-link cap evicts the first
success (link l0) from the final recorded state, so a succeeded entry is
not recorded, contrary to the claim. -/
theorem c6_counterexample :
    mkEnt 1 ∈ planOf feedC6 ["h"] ∧ okC6 (mkEnt 1) = false ∧
    (∀ e ∈ planOf feedC6 ["h"], e = mkEnt 1 ∨ okC6 e = true) ∧
    okC6 (mkEnt 0) = true ∧ mkEnt 0 ∈ planOf feedC6 ["h"] ∧
    linkOf (mkEnt 0) ∉ finalRecorded okC6 feedC6 ["h"] := by
  decide

/-- C6, amended: with a well-formed prior history (length at most 100),
distinct plan links, and at most 100 successful publishes in the run, a
single failing entry does not abort the batch: every entry whose publish
succeeded, before or after the failed one, has its link in the final
recorded state, and the failed entry's link is absent from it. -/
theorem c6_partial_failure (feed : List Entry) (hist : List String) (ok : Entry → Bool)
    (f : Entry) (hh : hist.length ≤ 100)
    (hf : f ∈ planOf feed hist) (hfail : ok f = false)
    (hnodup : ((planOf feed hist).map linkOf).Nodup)
    (hsucc : ((planOf feed hist).filter ok).length ≤ 100) :
    (∀ e ∈ planOf feed hist, ok e = true → linkOf e ∈ finalRecorded ok feed hist) ∧
    linkOf f ∉ finalRecorded ok feed hist := by
  by_cases hcap : firstRunCapTriggers feed hist = true
  · have hlen1 : (planOf feed hist).length ≤ 1 := by
      rw [length_plan]
      unfold itemsAfterCap
      rw [if_pos hcap]
      exact List.length_take_le 1 _
    have hp1 : planOf feed hist = [f] := by
      cases hp : planOf feed hist with
      | nil =>
        rw [hp] at hf
        simp at hf
      | cons a l =>
        rw [hp] at hf hlen1
        simp only [List.length_cons] at hlen1
        have hl : l = [] := List.length_eq_zero.mp (by omega)
        subst hl
        have hfa : f = a := by simpa using hf
        rw [hfa]
    have hany : (planOf feed hist).any ok = false := by
      rw [hp1]
      simp [hfail]
    have hfin : finalRecorded ok feed hist = hist := by
      unfold finalRecorded
      rw [if_neg (by rw [hany]; exact Bool.false_ne_true)]
    have hhist_nil : hist = [] := ((capTriggers_iff feed hist).mp hcap).1
    constructor
    · intro e he hoke
      rw [hp1] at he
      have hef : e = f := by simpa using he
      rw [hef, hfail] at hoke
      exact absurd hoke (by simp)
    · rw [hfin, hhist_nil]
      simp
  · have hh0 : histAfterCap feed hist = hist := by
      unfold histAfterCap
      rw [if_neg hcap]
    have hpc : ∀ e ∈ planOf feed hist, e ∈ candidateItems feed hist := by
      intro e he
      rw [mem_plan_iff] at he
      unfold itemsAfterCap at he
      rw [if_neg hcap] at he
      exact he
    have hnh : ∀ e ∈ planOf feed hist, linkOf e ∉ hist := by
      intro e he hmem
      have hc := hpc e he
      unfold candidateItems at hc
      rw [List.mem_filter] at hc
      have hb := hc.2
      rw [(contains_iff_mem hist _).mpr hmem] at hb
      simp at hb
    by_cases hany : (planOf feed hist).any ok = true
    · have hfin : finalRecorded ok feed hist =
          histFold hist (((planOf feed hist).filter ok).map linkOf) := by
        unfold finalRecorded
        rw [if_pos hany, loopHist_eq_histFold, hh0]
      constructor
      · intro e he hoke
        rw [hfin]
        refine mem_histFold_of_mem _ _ hh (by rw [List.length_map]; exact hsucc) ?_
        exact List.mem_map_of_mem _ (List.mem_filter.mpr ⟨he, hoke⟩)
      · rw [hfin]
        refine not_mem_histFold _ _ (hnh f hf) ?_
        intro hmem
        obtain ⟨g, hg, hgl⟩ := List.mem_map.mp hmem
        have hgp : g ∈ planOf feed hist := List.mem_of_mem_filter hg
        have hgok : ok g = true := (List.mem_filter.mp hg).2
        have hgf : g ≠ f := by
          intro hgeq
          rw [hgeq, hfail] at hgok
          exact absurd hgok (by simp)
        exact hgf (List.inj_on_of_nodup_map hnodup hgp hf hgl)
    · have hfin : finalRecorded ok feed hist = hist := by
        unfold finalRecorded
        rw [if_neg hany]
      constructor
      · intro e he hoke
        exact absurd (List.any_eq_true.mpr ⟨e, he, hoke⟩) hany
      · rw [hfin]
        exact hnh f hf

/-- C6, witness at a concrete 3-entry plan whose middle entry fails. -/
theorem c6_witness :
    okW6 (mkEnt 1) = false ∧
    (∀ e ∈ planOf feedW6 ["w"], okW6 e = true → linkOf e ∈ finalRecorded okW6 feedW6 ["w"]) ∧
    linkOf (mkEnt 1) ∉ finalRecorded okW6 feedW6 ["w"] :=
  ⟨by decide,
    (c6_partial_failure feedW6 ["w"] okW6 (mkEnt 1) (by decide) (by decide) (by decide)
      (by decide) (by decide)).1,
    (c6_partial_failure feedW6 ["w"] okW6 (mkEnt 1) (by decide) (by decide) (by decide)
      (by decide) (by decide)).2⟩

/-- C8, counterexample: for a legacy record with link L and no timestamp,
when L is absent from the snapshot the timestamp engine normalizes to
time 0, exactly the state an absent record produces, and selects the
single newest item (the first-run path); the claimed singleton
set-membership state {L} is not what the code computes. -/
theorem c8_counterexample :
    loadTimeTS (.record none (some "L") none) (allItemsTS feedC8) = 0 ∧
    loadTimeTS .absent (allItemsTS feedC8) = 0 ∧
    canonOfTS (loadTimeTS (.record none (some "L") none) (allItemsTS feedC8)) ≠
      normalizeLegacySpec "L" (allItemsTS feedC8) ∧
    selectTS (allItemsTS feedC8) (loadTimeTS (.record none (some "L") none) (allItemsTS feedC8)) =
      [⟨some "t", some "a", some 2, none⟩] := by
  decide

/-- C8, amended: a legacy link-only record is handled differently by the
two engines. In the timestamp variant (src/README.md) the link is looked
up in the current snapshot and, when found, its date becomes the
high-water time; when not found the state falls back to 0, the empty
first-run state, with no singleton link set retained. In src/index.js
the record migrates directly to the singleton history [link] with no
timestamp resolution at all. -/
theorem c8_legacy_normalization (feed : List Entry) (l : String) (hl : l ≠ "") :
    (∀ e, (allItemsTS feed).find? (fun x => x.link == some l) = some e →
      loadTimeTS (.record none (some l) none) (allItemsTS feed) = dateKey e) ∧
    ((allItemsTS feed).find? (fun x => x.link == some l) = none →
      loadTimeTS (.record none (some l) none) (allItemsTS feed) = 0) ∧
    loadHistory (.record none (some l) none) = [l] := by
  have hbase : loadTimeTS (.record none (some l) none) (allItemsTS feed)
      = match (allItemsTS feed).find? (fun e => e.link == some l) with
        | some e => dateKey e
        | none => 0 := by
    show (if ((none : Option Nat).getD 0) ≠ 0 then (none : Option Nat).getD 0
          else if l ≠ "" then
            match (allItemsTS feed).find? (fun e => e.link == some l) with
            | some e => dateKey e
            | none => 0
          else 0) = _
    rw [if_neg (by simp), if_pos hl]
  refine ⟨?_, ?_, ?_⟩
  · intro e hfind
    rw [hbase, hfind]
  · intro hfind
    rw [hbase, hfind]
  · show (if l ≠ "" then [l] else []) = [l]
    rw [if_pos hl]

/-- C8, witness at a concrete 1-entry feed containing the legacy link. -/
theorem c8_witness :
    (("k" : String) ≠ "") ∧
    loadTimeTS (.record none (some "k") none) (allItemsTS feedW8) = 3 ∧
    loadHistory (.record none (some "k") none) = ["k"] := by
  refine ⟨by decide, ?_, (c8_legacy_normalization feedW8 "k" (by decide)).2.2⟩
  exact (c8_legacy_normalization feedW8 "k" (by decide)).1
    ⟨some "t", some "k", some 3, none⟩ (by decide)

/-- C9, counterexample: when the first-run cap triggers with exactly 100
candidates and the single selected item is published, the post-publish
100-cap evicts the seeded copy of its link, so the link occurs once, not
twice, in the persisted history. -/
theorem c9_counterexample :
    firstRunCapTriggers feedC9 [] = true ∧ planOf feedC9 [] = [mkEnt 0] ∧
    (runOnce feedC9 []).count (linkOf (mkEnt 0)) = 1 := by
  decide

/-- C9, amended: when the first-run cap triggers with at most 99
candidates having pairwise distinct links and the single selected item
is published successfully, its link really does occur twice in the final
history (once from seeding, once from the per-publish append), so the
persisted history is a list that can hold duplicate links, not a
duplicate-free set. -/
theorem c9_duplicate_seed (feed : List Entry)
    (hgt : 5 < (candidateItems feed []).length)
    (hle : (candidateItems feed []).length ≤ 99)
    (hnodup : ((candidateItems feed []).map linkOf).Nodup) :
    ∃ m, planOf feed [] = [m] ∧ (runOnce feed []).count (linkOf m) = 2 ∧
      ¬ (runOnce feed []).Nodup := by
  obtain ⟨m, rest, hmr, hplan, _, hrun⟩ := firstRun_cap_structure feed hgt
  have hrestlen : rest.length + 1 ≤ 99 := by
    rw [hmr] at hle
    simpa using hle
  have hcp : capPush ((m :: rest).map linkOf) (linkOf m)
      = (m :: rest).map linkOf ++ [linkOf m] :=
    capPush_of_le (by simp; omega)
  have hnd : linkOf m ∉ rest.map linkOf := by
    rw [hmr, List.map_cons] at hnodup
    exact (List.nodup_cons.mp hnodup).1
  have hcount : (runOnce feed []).count (linkOf m) = 2 := by
    rw [hrun, hcp, List.count_append, List.map_cons, List.count_cons_self,
      List.count_eq_zero.mpr hnd]
    simp
  refine ⟨m, hplan, hcount, ?_⟩
  intro hnd2
  have hc1 := (List.nodup_iff_count_le_one.mp hnd2) (linkOf m)
  omega

/-- C9, witness at a concrete 7-entry first-run feed. -/
theorem c9_witness :
    5 < (candidateItems feedW9 []).length ∧
    (∃ m, planOf feedW9 [] = [m] ∧ (runOnce feedW9 []).count (linkOf m) = 2 ∧
      ¬ (runOnce feedW9 []).Nodup) :=
  ⟨by decide, c9_duplicate_seed feedW9 (by decide) (by decide) (by decide)⟩

/-- C10, witness at concrete entries with a short summary and with no
summary. -/
theorem c10_witness :
    descOf ⟨some "t", some "l", some 1, some "abc"⟩ = "abc..." ∧
    descOf ⟨some "t", some "l", some 1, none⟩ = "" := by
  constructor
  · have h := (c10_description ⟨some "t", some "l", some 1, some "abc"⟩).1 "abc" rfl (by decide)
    rw [h.1]
    decide
  · exact (c10_description ⟨some "t", some "l", some 1, none⟩).2 (Or.inl rfl)

end BlueskyBot
